import Mathlib

/-!
Verification of the muscadine TUI history component (tui/history_state.go).

The Go code is shallowly embedded below: Go strings become lists of
unicode characters (the code only ever inspects whole runes), Go `int`
timestamps become `Int`, and the viewport dimensions (always obtained
from a terminal, hence non-negative) become `Nat`.  The external
go-runewidth library's `Wrap` is embedded from its implementation; its
character-width table is abbreviated (zero width for control
characters, 2 for East-Asian wide ranges, 1 otherwise), which no
theorem below depends on.  Go's `sort.Slice` documents that it sorts
but is NOT guaranteed to be stable, so `New` is embedded as a relation
permitting any timestamp-sorted permutation.
-/

namespace Muscadine

/-- Go strings, viewed as their sequence of runes. -/
abbrev GoStr := List Char

/-- arbor.ChatMessage, the fields used by the TUI. -/
structure ChatMessage where
  uuid : GoStr
  username : GoStr
  content : GoStr
  timestamp : Int
  deriving DecidableEq, Inhabited

/-- tui.HistoryState.  `renderWidth`/`renderHeight` are Go ints holding
terminal dimensions, hence non-negative; `currentIndex` is a Go int that
only ever holds slice indices or 0, hence non-negative. -/
structure HistoryState where
  history : List ChatMessage
  renderWidth : Nat
  renderHeight : Nat
  current : GoStr
  currentIndex : Nat
  deriving DecidableEq

/-- The ANSI escape sequence highlighting the currently selected message. -/
def CurrentColor : GoStr := "\x1b[0;31m".toList

/-- The ANSI escape sequence returning to the default color. -/
def ClearColor : GoStr := "\x1b[0;0m".toList

/-- The ": " string placed between the username and the message body. -/
def sepStr : GoStr := [':', ' ']

/-- NewHistoryState() builds the empty state (the Go version also
pre-reserves capacity, which has no observable effect). -/
def initState : HistoryState :=
  { history := [], renderWidth := 0, renderHeight := 0, current := [], currentIndex := 0 }

/-- Whether a code point falls in one of the East-Asian wide ranges.
Abbreviated from the go-runewidth table; no theorem depends on which
exact code points are wide. -/
def isWideRune (n : Nat) : Bool :=
  decide ((0x1100 ≤ n ∧ n ≤ 0x115F) ∨ (0x2E80 ≤ n ∧ n ≤ 0x303E) ∨
    (0x3041 ≤ n ∧ n ≤ 0x33FF) ∨ (0x3400 ≤ n ∧ n ≤ 0x4DBF) ∨
    (0x4E00 ≤ n ∧ n ≤ 0x9FFF) ∨ (0xA000 ≤ n ∧ n ≤ 0xA4CF) ∨
    (0xAC00 ≤ n ∧ n ≤ 0xD7A3) ∨ (0xF900 ≤ n ∧ n ≤ 0xFAFF) ∨
    (0xFE30 ≤ n ∧ n ≤ 0xFE4F) ∨ (0xFF00 ≤ n ∧ n ≤ 0xFF60) ∨
    (0xFFE0 ≤ n ∧ n ≤ 0xFFE6) ∨ (0x20000 ≤ n ∧ n ≤ 0x3FFFD))

/-- runewidth.RuneWidth: 0 for control characters, 2 for East-Asian
wide characters, 1 otherwise (table abbreviated from go-runewidth). -/
def runeWidth (c : Char) : Nat :=
  if c.toNat < 0x20 ∨ (0x7F ≤ c.toNat ∧ c.toNat ≤ 0x9F) then 0
  else if isWideRune c.toNat then 2 else 1

/-- runewidth.StringWidth: the total display width of a string. -/
def strWidth (s : GoStr) : Nat := (s.map runeWidth).sum

/-- The loop of runewidth.Wrap: `width` is the display width accumulated
on the current output line, `w` the wrap width.  A newline in the input
resets the column; a character that would overflow the line is pushed
onto a fresh line. -/
def wrapFrom (w : Int) : Nat → GoStr → GoStr
  | _, [] => []
  | width, r :: rest =>
    if r = '\n' then r :: wrapFrom w 0 rest
    else if (width + runeWidth r : Int) > w then '\n' :: r :: wrapFrom w (runeWidth r) rest
    else r :: wrapFrom w (width + runeWidth r) rest

/-- runewidth.Wrap(s, w). -/
def wrap (s : GoStr) (w : Int) : GoStr := wrapFrom w 0 s

/-- strings.SplitAfter(s, "\n"): split after every newline.  The result
is never empty; each piece except the last ends in the newline it was
split after, and the last piece contains no newline. -/
def splitAfterNewline : GoStr → List GoStr
  | [] => [[]]
  | c :: rest =>
    if c = '\n' then [c] :: splitAfterNewline rest
    else
      match splitAfterNewline rest with
      | [] => [[c]]
      | l :: ls => (c :: l) :: ls

/-- Replace the head of a list (wrappedLines[0] assignment in Go). -/
def modHead (f : GoStr → GoStr) : List GoStr → List GoStr
  | [] => []
  | l :: ls => f l :: ls

/-- Replace the last element of a list (wrappedLines[len-1] assignment). -/
def modLast (f : GoStr → GoStr) : List GoStr → List GoStr
  | [] => []
  | [l] => [f l]
  | l :: l' :: ls => l :: modLast f (l' :: ls)

/-- The "ensure last line ends with newline" step of RenderMessage:
append a newline unless the line already ends with one (the Go
condition `(len>0 && last != newline) || len==0` is exactly that). -/
def ensureNL (l : GoStr) : GoStr :=
  if l.getLast? = some '\n' then l else l ++ ['\n']

/-- The wrapped-line sequence RenderMessage builds before gluing on the
gutter and padding: content wrapped to width minus gutter width, split
after newlines, last line newline-terminated. -/
def baseLinesStr (username content : GoStr) (width : Int) : List GoStr :=
  modLast ensureNL
    (splitAfterNewline (wrap content (width - (strWidth username + strWidth sepStr : Nat))))

/-- `baseLinesStr` applied to a message's fields. -/
def baseLines (m : ChatMessage) (width : Int) : List GoStr :=
  baseLinesStr m.username m.content width

/-- The wrapped lines of RenderMessage after the highlight step. -/
def wrappedLinesOf (h : HistoryState) (m : ChatMessage) (width : Int) : List GoStr :=
  if h.current = m.uuid then
    modLast (fun l => l ++ ClearColor) (modHead (fun l => CurrentColor ++ l) (baseLines m width))
  else baseLines m width

/-- The continuation padding: spaces as wide as the gutter. -/
def padOf (m : ChatMessage) : GoStr :=
  List.replicate (strWidth m.username + strWidth sepStr) ' '

/-- HistoryState.RenderMessage(message, width).  The first line carries
the `username: ` gutter, every later line the space padding.  The
wrapped-line list is never empty, so the `[]` branch is unreachable
(Go indexes element 0 unconditionally). -/
def renderMessage (h : HistoryState) (m : ChatMessage) (width : Int) : List GoStr :=
  match wrappedLinesOf h m width with
  | [] => []
  | l :: ls => (m.username ++ sepStr ++ l) :: ls.map (fun x => padOf m ++ x)

/-- lastNElems: the final n elements of a message slice. -/
def lastNElems (slice : List ChatMessage) (n : Nat) : List ChatMessage :=
  if n ≥ slice.length then slice else slice.drop (slice.length - n)

/-- lastNElemsBytes: the final n elements of a slice of rendered lines. -/
def lastNElemsBytes (slice : List GoStr) (n : Nat) : List GoStr :=
  if n ≥ slice.length then slice else slice.drop (slice.length - n)

/-- The list of lines HistoryState.Render writes when every write
succeeds.  Go allocates `make([][]byte, h.renderHeight)` — renderHeight
empty lines — and appends each message's rendered lines to it, then
keeps only the last renderHeight entries. -/
def renderLines (h : HistoryState) : List GoStr :=
  lastNElemsBytes
    (List.replicate h.renderHeight [] ++
      ((lastNElems h.history h.renderHeight).map
        (fun m => renderMessage h m (h.renderWidth : Int))).flatten)
    h.renderHeight

/-- The write loop of Render against an output sink whose behaviour is
given by `behavior`: the k-th Write call either succeeds (`none`) or
fails with an error (`some e`).  Returns the lines actually written and
the error Render returns (`none` on success). -/
def writeAll {ε : Type} (behavior : Nat → Option ε) : Nat → List GoStr → List GoStr × Option ε
  | _, [] => ([], none)
  | k, l :: ls =>
    match behavior k with
    | some e => ([], some e)
    | none =>
      let p := writeAll behavior (k + 1) ls
      (l :: p.1, p.2)

/-- HistoryState.Render(target): write the visible lines in order to the
sink; stop at the first write error and return it. -/
def render {ε : Type} (h : HistoryState) (behavior : Nat → Option ε) : List GoStr × Option ε :=
  writeAll behavior 0 (renderLines h)

/-- HistoryState.Current(). -/
def Current (h : HistoryState) : GoStr := h.current

/-- HistoryState.SetDimensions(height, width). -/
def SetDimensions (h : HistoryState) (height width : Nat) : HistoryState :=
  { h with renderHeight := height, renderWidth := width }

/-- HistoryState.CursorDown().  The second guard makes the index access
safe, so `List.get` carries its bound. -/
def cursorDown (h : HistoryState) : HistoryState :=
  if h.history.length < 2 then h
  else if hidx : h.currentIndex + 1 ≥ h.history.length then h
  else
    { h with
      current := (h.history.get ⟨h.currentIndex + 1, by omega⟩).uuid
      currentIndex := h.currentIndex + 1 }

/-- HistoryState.CursorUp().  Go indexes `History[currentIndex-1]`
directly; in every state reachable through the API `currentIndex` stays
below the history length, so the `getD` default is never consulted
there (Go would panic outside that range). -/
def cursorUp (h : HistoryState) : HistoryState :=
  if h.history.length < 2 then h
  else if h.currentIndex = 0 then h
  else
    { h with
      current := (h.history.getD (h.currentIndex - 1) default).uuid
      currentIndex := h.currentIndex - 1 }

/-- The loop in New that locates the just-added message after sorting:
it scans the whole history and keeps the LAST index whose UUID matches
(Go does not break out of the loop), starting from the old index value. -/
def scanIndex (uuid : GoStr) (hist : List ChatMessage) (start : Nat) : Nat :=
  hist.enum.foldl (fun acc p => if uuid = p.2.uuid then p.1 else acc) start

/-- HistoryState.New(message), as a relation.  The message is appended
and the history re-sorted with sort.Slice, whose contract promises a
permutation ordered by the comparator (Timestamp <) but NOT stability —
so any timestamp-sorted permutation of the old history plus the new
message is an allowed outcome.  When no message was selected yet, the
new message becomes selected and its (last matching) index is cached. -/
def NewRel (h : HistoryState) (m : ChatMessage) (h' : HistoryState) : Prop :=
  h'.history.Perm (h.history ++ [m]) ∧
  h'.history.Pairwise (fun a b => a.timestamp ≤ b.timestamp) ∧
  h'.renderWidth = h.renderWidth ∧
  h'.renderHeight = h.renderHeight ∧
  (if h.current = [] then
      h'.current = m.uuid ∧ h'.currentIndex = scanIndex m.uuid h'.history h.currentIndex
    else h'.current = h.current ∧ h'.currentIndex = h.currentIndex)

instance (h : HistoryState) (m : ChatMessage) (h' : HistoryState) :
    Decidable (NewRel h m h') := by
  unfold NewRel
  infer_instance

/-- `Reaches h msgs h'`: from state `h`, the sequence of New calls for
`msgs` (in order) can produce state `h'`. -/
inductive Reaches : HistoryState → List ChatMessage → HistoryState → Prop
  | nil (h : HistoryState) : Reaches h [] h
  | step {h h1 h2 : HistoryState} {m : ChatMessage} {ms : List ChatMessage} :
      NewRel h m h1 → Reaches h1 ms h2 → Reaches h (m :: ms) h2

/-- Number of ESC (0x1b) characters on a line; each ANSI marker
contains exactly one. -/
def escCount (l : GoStr) : Nat := l.count '\x1b'

/-- `beginsWith p l`: the line `l` starts with the string `p`. -/
def beginsWith (p l : GoStr) : Prop := l.take p.length = p

/-- `endsWith p l`: the line `l` ends with the string `p`. -/
def endsWith (p l : GoStr) : Prop := l.drop (l.length - p.length) = p

instance (p l : GoStr) : Decidable (beginsWith p l) :=
  inferInstanceAs (Decidable (l.take p.length = p))

instance (p l : GoStr) : Decidable (endsWith p l) :=
  inferInstanceAs (Decidable (l.drop (l.length - p.length) = p))

/-! Concrete fixtures used by witnesses and counterexamples. -/

/-- A short message from user `u`. -/
def demoMsg : ChatMessage := { uuid := ['a'], username := ['u'], content := ['h', 'i'], timestamp := 1 }

/-- A message long enough to wrap at width 10. -/
def demoWrapMsg : ChatMessage :=
  { uuid := ['a'], username := ['u'], content := "hello world this wraps".toList, timestamp := 1 }

/-- A message whose content ends in a newline. -/
def demoNLMsg : ChatMessage :=
  { uuid := ['a'], username := ['u'], content := ['h', 'i', '\n'], timestamp := 1 }

/-- A second message, from user `v`. -/
def demoMsgB : ChatMessage := { uuid := ['b'], username := ['v'], content := ['y', 'o'], timestamp := 2 }

/-- A state in which `demoMsg` is not the selected message. -/
def demoOff : HistoryState :=
  { history := [demoMsg], renderWidth := 10, renderHeight := 5, current := ['z'], currentIndex := 0 }

/-- A state in which `demoMsg` is the selected message. -/
def demoOn : HistoryState :=
  { history := [demoMsg], renderWidth := 10, renderHeight := 5, current := ['a'], currentIndex := 0 }

/-- A two-message state with the older message selected. -/
def demoTwo : HistoryState :=
  { history := [demoMsg, demoMsgB], renderWidth := 80, renderHeight := 3,
    current := ['a'], currentIndex := 0 }

/-- First message of the equal-timestamp pair. -/
def msgA : ChatMessage := { uuid := ['a'], username := ['u'], content := [], timestamp := 5 }

/-- Second message of the equal-timestamp pair. -/
def msgB : ChatMessage := { uuid := ['b'], username := ['v'], content := [], timestamp := 5 }

/-- The state after `New msgA` from the empty state. -/
def stateA : HistoryState :=
  { history := [msgA], renderWidth := 0, renderHeight := 0, current := ['a'], currentIndex := 0 }

/-- A state sort.Slice may produce after `New msgA; New msgB`: both
timestamps are 5, so `[msgB, msgA]` is a sorted permutation an unstable
sort is free to return. -/
def stateBA : HistoryState :=
  { history := [msgB, msgA], renderWidth := 0, renderHeight := 0, current := ['a'], currentIndex := 0 }

/-! ## Helper lemmas on the wrapping pipeline -/

theorem strWidth_append (a b : GoStr) : strWidth (a ++ b) = strWidth a + strWidth b := by
  simp [strWidth]

theorem strWidth_cons (c : Char) (s : GoStr) : strWidth (c :: s) = runeWidth c + strWidth s := by
  simp [strWidth]

theorem splitAfterNewline_ne_nil (l : GoStr) : splitAfterNewline l ≠ [] := by
  cases l with
  | nil => simp [splitAfterNewline]
  | cons c rest =>
    unfold splitAfterNewline
    split
    · simp
    · cases splitAfterNewline rest <;> simp

theorem splitAfterNewline_flatten (l : GoStr) : (splitAfterNewline l).flatten = l := by
  induction l with
  | nil => simp [splitAfterNewline]
  | cons c rest ih =>
    unfold splitAfterNewline
    by_cases hc : c = '\n'
    · simp [hc, ih]
    · rw [if_neg hc]
      cases hs : splitAfterNewline rest with
      | nil => exact absurd hs (splitAfterNewline_ne_nil rest)
      | cons a as =>
        rw [hs] at ih
        simp only [List.flatten_cons] at ih ⊢
        simp [ih]

theorem splitAfterNewline_concat (l : GoStr) :
    ∃ init p, splitAfterNewline l = init ++ [p] ∧ '\n' ∉ p := by
  induction l with
  | nil => exact ⟨[], [], rfl, by simp⟩
  | cons c rest ih =>
    obtain ⟨init, p, hs, hp⟩ := ih
    unfold splitAfterNewline
    by_cases hc : c = '\n'
    · rw [if_pos hc, hs]
      exact ⟨[c] :: init, p, by simp, hp⟩
    · rw [if_neg hc, hs]
      cases init with
      | nil =>
        refine ⟨[], c :: p, by simp, ?_⟩
        intro hmem
        rcases List.mem_cons.1 hmem with h | h
        · exact hc h.symm
        · exact hp h
      | cons i is => exact ⟨(c :: i) :: is, p, by simp, hp⟩

theorem modLast_append_singleton (f : GoStr → GoStr) (xs : List GoStr) (a : GoStr) :
    modLast f (xs ++ [a]) = xs ++ [f a] := by
  induction xs with
  | nil => rfl
  | cons x xs ih =>
    cases xs with
    | nil => rfl
    | cons y ys =>
      show x :: modLast f ((y :: ys) ++ [a]) = x :: ((y :: ys) ++ [f a])
      rw [ih]

theorem modLast_cons_of_ne_nil (f : GoStr → GoStr) (a : GoStr) (l : List GoStr) (h : l ≠ []) :
    modLast f (a :: l) = a :: modLast f l := by
  cases l with
  | nil => exact absurd rfl h
  | cons b bs => rfl

theorem mem_modLast (f : GoStr → GoStr) (L : List GoStr) (p : GoStr) (hp : p ∈ modLast f L) :
    p ∈ L ∨ ∃ q, q ∈ L ∧ p = f q := by
  rcases L.eq_nil_or_concat with rfl | ⟨init, a, rfl⟩
  · simp [modLast] at hp
  · simp only [List.concat_eq_append] at hp ⊢
    rw [modLast_append_singleton] at hp
    rcases List.mem_append.1 hp with h | h
    · exact Or.inl (List.mem_append_left _ h)
    · exact Or.inr ⟨a, by simp, by simpa using h⟩

theorem mem_wrapFrom {c : Char} (w : Int) (a : Nat) (s : GoStr) (hc : c ∈ wrapFrom w a s) :
    c ∈ s ∨ c = '\n' := by
  induction s generalizing a with
  | nil => simp [wrapFrom] at hc
  | cons r rest ih =>
    unfold wrapFrom at hc
    split at hc
    · rcases List.mem_cons.1 hc with rfl | h
      · exact Or.inl (List.mem_cons_self _ _)
      · rcases ih _ h with h' | h'
        · exact Or.inl (List.mem_cons_of_mem _ h')
        · exact Or.inr h'
    · split at hc
      · rcases List.mem_cons.1 hc with rfl | h
        · exact Or.inr rfl
        · rcases List.mem_cons.1 h with rfl | h'
          · exact Or.inl (List.mem_cons_self _ _)
          · rcases ih _ h' with h'' | h''
            · exact Or.inl (List.mem_cons_of_mem _ h'')
            · exact Or.inr h''
      · rcases List.mem_cons.1 hc with rfl | h
        · exact Or.inl (List.mem_cons_self _ _)
        · rcases ih _ h with h' | h'
          · exact Or.inl (List.mem_cons_of_mem _ h')
          · exact Or.inr h'

theorem wrapFrom_fits (w : Int) (a : Nat) (s : GoStr) (hnl : '\n' ∉ s)
    (hle : (a : Int) + strWidth s ≤ w) : wrapFrom w a s = s := by
  induction s generalizing a with
  | nil => rfl
  | cons r rest ih =>
    have hr : r ≠ '\n' := fun h => hnl (h ▸ List.mem_cons_self _ _)
    have hw : strWidth (r :: rest) = runeWidth r + strWidth rest := strWidth_cons r rest
    unfold wrapFrom
    rw [if_neg hr, if_neg (by rw [hw] at hle; push_cast at hle ⊢; omega)]
    have : '\n' ∉ rest := fun h => hnl (List.mem_cons_of_mem _ h)
    rw [ih _ this (by rw [hw] at hle; push_cast at hle ⊢; omega)]

theorem wrapFrom_append_newline (w : Int) (a : Nat) (s : GoStr) :
    wrapFrom w a (s ++ ['\n']) = wrapFrom w a s ++ ['\n'] := by
  induction s generalizing a with
  | nil => simp [wrapFrom]
  | cons r rest ih =>
    show wrapFrom w a (r :: (rest ++ ['\n'])) = _
    unfold wrapFrom
    split
    · rw [ih]; rfl
    · split
      · rw [ih]; rfl
      · rw [ih]; rfl

theorem splitAfterNewline_append_newline (s : GoStr) :
    splitAfterNewline (s ++ ['\n']) =
      modLast (fun l => l ++ ['\n']) (splitAfterNewline s) ++ [[]] := by
  induction s with
  | nil => rfl
  | cons c rest ih =>
    by_cases hc : c = '\n'
    · subst hc
      have h1 : splitAfterNewline ('\n' :: (rest ++ ['\n'])) =
          ['\n'] :: splitAfterNewline (rest ++ ['\n']) := by
        simp [splitAfterNewline]
      have h2 : splitAfterNewline ('\n' :: rest) = ['\n'] :: splitAfterNewline rest := by
        simp [splitAfterNewline]
      rw [List.cons_append, h1, h2,
        modLast_cons_of_ne_nil _ _ _ (splitAfterNewline_ne_nil rest), ih]
      rfl
    · cases hsr : splitAfterNewline rest with
      | nil => exact absurd hsr (splitAfterNewline_ne_nil rest)
      | cons a as =>
        have hih : splitAfterNewline (rest ++ ['\n']) =
            modLast (fun l => l ++ ['\n']) (a :: as) ++ [[]] := by rw [ih, hsr]
        have h2 : splitAfterNewline (c :: rest) = (c :: a) :: as := by
          unfold splitAfterNewline
          rw [if_neg hc, hsr]
        cases as with
        | nil =>
          have h1 : splitAfterNewline (c :: (rest ++ ['\n'])) =
              (c :: (a ++ ['\n'])) :: [[]] := by
            unfold splitAfterNewline
            rw [if_neg hc, hih]
            rfl
          rw [List.cons_append, h1, h2]
          rfl
        | cons b bs =>
          have hmod : modLast (fun l => l ++ ['\n']) (a :: b :: bs) =
              a :: modLast (fun l => l ++ ['\n']) (b :: bs) := rfl
          have h1 : splitAfterNewline (c :: (rest ++ ['\n'])) =
              (c :: a) :: (modLast (fun l => l ++ ['\n']) (b :: bs) ++ [[]]) := by
            unfold splitAfterNewline
            rw [if_neg hc, hih, hmod]
            rfl
          rw [List.cons_append, h1, h2,
            modLast_cons_of_ne_nil _ (c :: a) (b :: bs) (by simp)]
          rfl

theorem splitAfterNewline_no_newline (s : GoStr) (h : '\n' ∉ s) : splitAfterNewline s = [s] := by
  induction s with
  | nil => rfl
  | cons c rest ih =>
    have hc : c ≠ '\n' := fun hx => h (hx ▸ List.mem_cons_self _ _)
    have hrest : '\n' ∉ rest := fun hx => h (List.mem_cons_of_mem _ hx)
    unfold splitAfterNewline
    rw [if_neg hc, ih hrest]

theorem ensureNL_of_no_newline (l : GoStr) (h : '\n' ∉ l) : ensureNL l = l ++ ['\n'] := by
  unfold ensureNL
  rw [if_neg]
  intro hsome
  exact h (List.mem_of_getLast?_eq_some hsome)

theorem ensureNL_concat (l : GoStr) : ∃ t, ensureNL l = t ++ ['\n'] := by
  unfold ensureNL
  split
  · next hsome => exact List.getLast?_eq_some_iff.1 hsome
  · exact ⟨l, rfl⟩

theorem beginsWith_append (p t : GoStr) : beginsWith p (p ++ t) := by
  unfold beginsWith
  exact List.take_left p t

theorem endsWith_append (p t : GoStr) : endsWith p (t ++ p) := by
  unfold endsWith
  have hlen : (t ++ p).length - p.length = t.length := by simp
  rw [hlen, List.drop_left]

theorem endsWith_append_left (p l t : GoStr) (h : endsWith p l) : endsWith p (t ++ l) := by
  unfold endsWith at h
  have hsplit : l = l.take (l.length - p.length) ++ p := by
    conv_lhs => rw [← List.take_append_drop (l.length - p.length) l]
    rw [h]
  have h2 := endsWith_append p (t ++ l.take (l.length - p.length))
  rw [List.append_assoc, ← hsplit] at h2
  exact h2

theorem no_esc_wrap (s : GoStr) (w : Int) (h : '\x1b' ∉ s) : '\x1b' ∉ wrap s w := by
  intro hin
  rcases mem_wrapFrom w 0 s hin with h' | h'
  · exact h h'
  · exact absurd h' (by decide)

theorem no_esc_pieces {W : GoStr} (hW : '\x1b' ∉ W) {q : GoStr}
    (hq : q ∈ splitAfterNewline W) : '\x1b' ∉ q := by
  intro hin
  exact hW (by rw [← splitAfterNewline_flatten W]; exact List.mem_flatten_of_mem hq hin)

theorem no_esc_ensureNL {q : GoStr} (h : '\x1b' ∉ q) : '\x1b' ∉ ensureNL q := by
  unfold ensureNL
  split
  · exact h
  · intro hin
    rcases List.mem_append.1 hin with h' | h'
    · exact h h'
    · simp at h'

theorem mem_baseLines_no_esc (m : ChatMessage) (width : Int) (hc : '\x1b' ∉ m.content)
    (p : GoStr) (hp : p ∈ baseLines m width) : '\x1b' ∉ p := by
  have hW : '\x1b' ∉ wrap m.content (width - (strWidth m.username + strWidth sepStr : Nat)) :=
    no_esc_wrap _ _ hc
  unfold baseLines baseLinesStr at hp
  rcases mem_modLast _ _ _ hp with h | ⟨q, hq, rfl⟩
  · exact no_esc_pieces hW h
  · exact no_esc_ensureNL (no_esc_pieces hW hq)

theorem baseLines_concat (m : ChatMessage) (width : Int) :
    ∃ init t, baseLines m width = init ++ [t ++ ['\n']] := by
  unfold baseLines baseLinesStr
  obtain ⟨init, p, hs, hp⟩ := splitAfterNewline_concat
    (wrap m.content (width - (strWidth m.username + strWidth sepStr : Nat)))
  rw [hs, modLast_append_singleton]
  obtain ⟨t, ht⟩ := ensureNL_concat p
  exact ⟨init, t, by rw [ht]⟩

theorem baseLines_ne_nil (m : ChatMessage) (width : Int) : baseLines m width ≠ [] := by
  obtain ⟨init, t, hb⟩ := baseLines_concat m width
  rw [hb]
  simp

theorem wrappedLinesOf_not_selected (h : HistoryState) (m : ChatMessage) (width : Int)
    (hsel : h.current ≠ m.uuid) : wrappedLinesOf h m width = baseLines m width := by
  unfold wrappedLinesOf
  rw [if_neg hsel]

theorem wrappedLinesOf_selected_single (h : HistoryState) (m : ChatMessage) (width : Int)
    (b : GoStr) (hsel : h.current = m.uuid) (hb : baseLines m width = [b]) :
    wrappedLinesOf h m width = [(CurrentColor ++ b) ++ ClearColor] := by
  unfold wrappedLinesOf
  rw [if_pos hsel, hb]
  rfl

theorem wrappedLinesOf_selected_multi (h : HistoryState) (m : ChatMessage) (width : Int)
    (b0 : GoStr) (binit : List GoStr) (bk : GoStr) (hsel : h.current = m.uuid)
    (hb : baseLines m width = b0 :: (binit ++ [bk])) :
    wrappedLinesOf h m width = (CurrentColor ++ b0) :: (binit ++ [bk ++ ClearColor]) := by
  unfold wrappedLinesOf
  rw [if_pos hsel, hb]
  rw [show modHead (fun l => CurrentColor ++ l) (b0 :: (binit ++ [bk])) =
      (CurrentColor ++ b0) :: (binit ++ [bk]) from rfl]
  rw [modLast_cons_of_ne_nil _ _ _ (by simp), modLast_append_singleton]

theorem renderMessage_cons (h : HistoryState) (m : ChatMessage) (width : Int)
    (b0 : GoStr) (bs : List GoStr) (hw : wrappedLinesOf h m width = b0 :: bs) :
    renderMessage h m width =
      (m.username ++ sepStr ++ b0) :: bs.map (fun x => padOf m ++ x) := by
  unfold renderMessage
  rw [hw]

theorem renderMessage_headD (h : HistoryState) (m : ChatMessage) (width : Int)
    (b0 : GoStr) (bs : List GoStr) (hw : wrappedLinesOf h m width = b0 :: bs) :
    (renderMessage h m width).headD [] = m.username ++ sepStr ++ b0 := by
  rw [renderMessage_cons h m width b0 bs hw]
  rfl

theorem renderMessage_getLastD (h : HistoryState) (m : ChatMessage) (width : Int)
    (ws : List GoStr) (wl : GoStr) (hw : wrappedLinesOf h m width = ws ++ [wl]) :
    ∃ t, (renderMessage h m width).getLastD [] = t ++ wl := by
  cases ws with
  | nil =>
    rw [renderMessage_cons h m width wl [] (by simpa using hw)]
    exact ⟨m.username ++ sepStr, by simp⟩
  | cons w0 wtail =>
    rw [renderMessage_cons h m width w0 (wtail ++ [wl]) (by simpa using hw)]
    refine ⟨padOf m, ?_⟩
    rw [List.map_append]
    simp only [List.map_cons, List.map_nil]
    rw [show (m.username ++ sepStr ++ w0) ::
        (List.map (fun x => padOf m ++ x) wtail ++ [padOf m ++ wl]) =
        ((m.username ++ sepStr ++ w0) :: List.map (fun x => padOf m ++ x) wtail) ++
          [padOf m ++ wl] from by simp]
    exact List.getLastD_concat _ _ _

theorem escCount_append (a b : GoStr) : escCount (a ++ b) = escCount a + escCount b :=
  List.count_append _ _ _

theorem escCount_pad (m : ChatMessage) : escCount (padOf m) = 0 := by
  simp [escCount, padOf, List.count_replicate]

theorem escCount_eq_zero {l : GoStr} (h : '\x1b' ∉ l) : escCount l = 0 :=
  List.count_eq_zero.2 h

/-! ## Claim C3: final-line termination -/

/-- C3 (amended): for a non-selected message, the final line produced by
RenderMessage ends with a newline even if the wrapped text did not
already end with one.  For the selected message this fails: the
newline-termination step runs before highlighting, so the final line
ends with the newline followed by the reset marker, not with the
newline itself. -/
theorem final_line_terminator (h : HistoryState) (m : ChatMessage) (width : Int) :
    (h.current ≠ m.uuid → endsWith ['\n'] ((renderMessage h m width).getLastD [])) ∧
    (h.current = m.uuid →
      endsWith ('\n' :: ClearColor) ((renderMessage h m width).getLastD [])) := by
  obtain ⟨binit, t, hb⟩ := baseLines_concat m width
  constructor
  · intro hsel
    have hw : wrappedLinesOf h m width = binit ++ [t ++ ['\n']] := by
      rw [wrappedLinesOf_not_selected h m width hsel, hb]
    obtain ⟨t2, h2⟩ := renderMessage_getLastD h m width binit _ hw
    rw [h2]
    exact endsWith_append_left _ _ _ (endsWith_append _ _)
  · intro hsel
    cases binit with
    | nil =>
      have hw := wrappedLinesOf_selected_single h m width _ hsel (by simpa using hb)
      obtain ⟨t2, h2⟩ :=
        renderMessage_getLastD h m width [] ((CurrentColor ++ (t ++ ['\n'])) ++ ClearColor)
          (by simpa using hw)
      rw [h2]
      have hassoc : (CurrentColor ++ (t ++ ['\n'])) ++ ClearColor =
          (CurrentColor ++ t) ++ ('\n' :: ClearColor) := by simp
      rw [hassoc, ← List.append_assoc]
      exact endsWith_append _ _
    | cons b0 btail =>
      have hb' : baseLines m width = b0 :: (btail ++ [t ++ ['\n']]) := by simpa using hb
      have hw := wrappedLinesOf_selected_multi h m width b0 btail _ hsel hb'
      obtain ⟨t2, h2⟩ := renderMessage_getLastD h m width ((CurrentColor ++ b0) :: btail)
        ((t ++ ['\n']) ++ ClearColor) (by rw [hw]; simp)
      rw [h2]
      have hassoc : (t ++ ['\n']) ++ ClearColor = t ++ ('\n' :: ClearColor) := by simp
      rw [hassoc, ← List.append_assoc]
      exact endsWith_append _ _

/-- C3 counterexample: with `demoMsg` selected, the final (only) line
RenderMessage produces is `u: <marker>hi\n<reset>`; its last character
is the final character of the reset marker, not a newline, so the claim
fails for selected messages. -/
theorem c3_counterexample :
    demoOn.current = demoMsg.uuid ∧
    ¬ endsWith ['\n'] ((renderMessage demoOn demoMsg 10).getLastD []) := by
  decide

/-- C3 witness: the amended theorem applied to a non-selected and to a
selected concrete message. -/
theorem c3_witness :
    endsWith ['\n'] ((renderMessage demoOff demoMsg 10).getLastD []) ∧
    endsWith ('\n' :: ClearColor) ((renderMessage demoOn demoMsg 10).getLastD []) :=
  ⟨(final_line_terminator demoOff demoMsg 10).1 (by decide),
   (final_line_terminator demoOn demoMsg 10).2 (by decide)⟩

/-! ## Claim C2: highlight markers -/

/-- C2 (amended): when the message is selected, RenderMessage inserts
the highlight marker immediately AFTER the `username: ` gutter — the
first line begins with the gutter followed by the marker, not with the
marker itself — and the last line ends with the reset marker; the pair
is applied once per message block (exactly two ESC characters across
the whole block).  When the message is not selected, no line contains
an ESC character.  Both escape-counting statements assume the username
and content are themselves free of ESC characters. -/
theorem highlight_marker_placement (h : HistoryState) (m : ChatMessage) (width : Int)
    (hu : '\x1b' ∉ m.username) (hc : '\x1b' ∉ m.content) :
    (h.current = m.uuid →
      beginsWith (m.username ++ sepStr ++ CurrentColor) ((renderMessage h m width).headD []) ∧
      endsWith ClearColor ((renderMessage h m width).getLastD []) ∧
      ((renderMessage h m width).map escCount).sum = 2) ∧
    (h.current ≠ m.uuid → ∀ l ∈ renderMessage h m width, escCount l = 0) := by
  have hCC : escCount CurrentColor = 1 := by decide
  have hCL : escCount ClearColor = 1 := by decide
  have hsep : escCount sepStr = 0 := by decide
  have huz : escCount m.username = 0 := escCount_eq_zero hu
  constructor
  · intro hsel
    obtain ⟨binit, t, hb⟩ := baseLines_concat m width
    cases binit with
    | nil =>
      have hb1 : baseLines m width = [t ++ ['\n']] := by simpa using hb
      have hw := wrappedLinesOf_selected_single h m width _ hsel hb1
      have hb0 : escCount (t ++ ['\n']) = 0 :=
        escCount_eq_zero (mem_baseLines_no_esc m width hc _ (by rw [hb1]; simp))
      refine ⟨?_, ?_, ?_⟩
      · rw [renderMessage_headD h m width _ [] hw]
        have hassoc : m.username ++ sepStr ++ ((CurrentColor ++ (t ++ ['\n'])) ++ ClearColor) =
            (m.username ++ sepStr ++ CurrentColor) ++ ((t ++ ['\n']) ++ ClearColor) := by simp
        rw [hassoc]
        exact beginsWith_append _ _
      · obtain ⟨t2, h2⟩ := renderMessage_getLastD h m width []
          ((CurrentColor ++ (t ++ ['\n'])) ++ ClearColor) (by simpa using hw)
        rw [h2, ← List.append_assoc]
        exact endsWith_append _ _
      · rw [renderMessage_cons h m width _ [] hw]
        have ht : escCount t = 0 := by
          have h' : escCount ['\n'] = 0 := by decide
          rw [escCount_append, h'] at hb0
          omega
        have hnlCL : escCount ('\n' :: ClearColor) = 1 := by decide
        simp only [List.map_cons, List.map_nil, List.sum_cons, List.sum_nil]
        simp [escCount_append, huz, hsep, hCC, hCL, ht, hnlCL]
    | cons b0 btail =>
      have hb' : baseLines m width = b0 :: (btail ++ [t ++ ['\n']]) := by simpa using hb
      have hw := wrappedLinesOf_selected_multi h m width b0 btail _ hsel hb'
      have hb0 : escCount b0 = 0 :=
        escCount_eq_zero (mem_baseLines_no_esc m width hc _ (by rw [hb']; simp))
      have hbk : escCount (t ++ ['\n']) = 0 :=
        escCount_eq_zero (mem_baseLines_no_esc m width hc _ (by rw [hb']; simp))
      refine ⟨?_, ?_, ?_⟩
      · rw [renderMessage_headD h m width _ _ hw]
        have hassoc : m.username ++ sepStr ++ (CurrentColor ++ b0) =
            (m.username ++ sepStr ++ CurrentColor) ++ b0 := by simp
        rw [hassoc]
        exact beginsWith_append _ _
      · obtain ⟨t2, h2⟩ := renderMessage_getLastD h m width ((CurrentColor ++ b0) :: btail)
          ((t ++ ['\n']) ++ ClearColor) (by rw [hw]; simp)
        rw [h2, ← List.append_assoc]
        exact endsWith_append _ _
      · rw [renderMessage_cons h m width _ _ hw]
        have ht : escCount t = 0 := by
          have h' : escCount ['\n'] = 0 := by decide
          rw [escCount_append, h'] at hbk
          omega
        have hnlCL : escCount ('\n' :: ClearColor) = 1 := by decide
        have hmid : ((btail.map (fun x => padOf m ++ x)).map escCount).sum = 0 := by
          apply List.sum_eq_zero
          intro y hy
          obtain ⟨z, hz, rfl⟩ := List.mem_map.1 hy
          obtain ⟨x, hx, rfl⟩ := List.mem_map.1 hz
          have hxb : x ∈ baseLines m width := by rw [hb']; simp [hx]
          rw [escCount_append, escCount_pad,
            escCount_eq_zero (mem_baseLines_no_esc m width hc _ hxb)]
          rfl
        simp only [List.map_append, List.map_cons, List.map_nil, List.sum_cons,
          List.sum_append, List.sum_nil]
        rw [hmid]
        simp [escCount_append, escCount_pad, huz, hsep, hCC, hCL, hb0, ht, hnlCL]
  · intro hsel l hl
    cases hB : baseLines m width with
    | nil => exact absurd hB (baseLines_ne_nil m width)
    | cons b0 bs =>
      have hw : wrappedLinesOf h m width = b0 :: bs := by
        rw [wrappedLinesOf_not_selected h m width hsel, hB]
      rw [renderMessage_cons h m width b0 bs hw] at hl
      rcases List.mem_cons.1 hl with rfl | hl'
      · have hb0 : escCount b0 = 0 :=
          escCount_eq_zero (mem_baseLines_no_esc m width hc _ (by rw [hB]; simp))
        simp [escCount_append, huz, hsep, hb0]
      · obtain ⟨x, hx, rfl⟩ := List.mem_map.1 hl'
        have hxb : x ∈ baseLines m width := by
          rw [hB]
          exact List.mem_cons_of_mem _ hx
        rw [escCount_append, escCount_pad,
          escCount_eq_zero (mem_baseLines_no_esc m width hc _ hxb)]

/-- C2 counterexample: with `demoMsg` selected, the first produced line
is `u: <marker>hi...`: it begins with the gutter, not with the
highlight marker, so the claim fails as stated. -/
theorem c2_counterexample :
    demoOn.current = demoMsg.uuid ∧
    ¬ beginsWith CurrentColor ((renderMessage demoOn demoMsg 10).headD []) := by
  decide

/-- C2 witness: the amended theorem at a concrete selected message and
a concrete non-selected one. -/
theorem c2_witness :
    (beginsWith (demoMsg.username ++ sepStr ++ CurrentColor)
        ((renderMessage demoOn demoMsg 10).headD []) ∧
      endsWith ClearColor ((renderMessage demoOn demoMsg 10).getLastD []) ∧
      ((renderMessage demoOn demoMsg 10).map escCount).sum = 2) ∧
    (∀ l ∈ renderMessage demoOff demoMsg 10, escCount l = 0) :=
  ⟨(highlight_marker_placement demoOn demoMsg 10 (by decide) (by decide)).1 (by decide),
   (highlight_marker_placement demoOff demoMsg 10 (by decide) (by decide)).2 (by decide)⟩

/-! ## Claim C7: short single-line messages -/

/-- C7: a non-selected message whose content contains no newline and
whose display width is strictly below the available wrap width (width
minus gutter width) renders as exactly one line, `username: content`
followed by a newline. -/
theorem short_message_single_line (h : HistoryState) (m : ChatMessage) (width : Int)
    (hsel : h.current ≠ m.uuid) (hnl : '\n' ∉ m.content)
    (hfit : (strWidth m.content : Int) <
      width - (strWidth m.username + strWidth sepStr : Nat)) :
    renderMessage h m width = [m.username ++ sepStr ++ (m.content ++ ['\n'])] := by
  have hwrap : wrap m.content (width - (strWidth m.username + strWidth sepStr : Nat)) =
      m.content := by
    unfold wrap
    exact wrapFrom_fits _ 0 _ hnl (by push_cast at hfit ⊢; omega)
  have hbase : baseLines m width = [m.content ++ ['\n']] := by
    unfold baseLines baseLinesStr
    rw [hwrap, splitAfterNewline_no_newline _ hnl]
    show [ensureNL m.content] = _
    rw [ensureNL_of_no_newline _ hnl]
  have hw : wrappedLinesOf h m width = [m.content ++ ['\n']] := by
    rw [wrappedLinesOf_not_selected h m width hsel, hbase]
  rw [renderMessage_cons h m width _ [] hw]
  rfl

/-- C7 witness: user `u`, content `hi`, width 10: one line `u: hi\n`. -/
theorem c7_witness :
    renderMessage demoOff demoMsg 10 =
      [demoMsg.username ++ sepStr ++ (demoMsg.content ++ ['\n'])] :=
  short_message_single_line demoOff demoMsg 10 (by decide) (by decide) (by decide)

/-! ## Claim C8: continuation-line padding -/

theorem modHead_ne_nil (f : GoStr → GoStr) (l : List GoStr) (h : l ≠ []) : modHead f l ≠ [] := by
  cases l with
  | nil => exact absurd rfl h
  | cons a as => simp [modHead]

theorem modLast_ne_nil (f : GoStr → GoStr) (l : List GoStr) (h : l ≠ []) : modLast f l ≠ [] := by
  cases l with
  | nil => exact absurd rfl h
  | cons a as => cases as <;> simp [modLast]

theorem wrappedLinesOf_ne_nil (h : HistoryState) (m : ChatMessage) (width : Int) :
    wrappedLinesOf h m width ≠ [] := by
  unfold wrappedLinesOf
  split
  · exact modLast_ne_nil _ _ (modHead_ne_nil _ _ (baseLines_ne_nil m width))
  · exact baseLines_ne_nil m width

/-- C8: every produced line after the first starts with a pad of spaces
whose length is display-width(username) plus display-width(": "), and
what follows the pad is one of the wrapped lines of the message. -/
theorem continuation_line_padding (h : HistoryState) (m : ChatMessage) (width : Int)
    (l : GoStr) (hl : l ∈ (renderMessage h m width).tail) :
    l.take (strWidth m.username + strWidth sepStr) =
      List.replicate (strWidth m.username + strWidth sepStr) ' ' ∧
    l.drop (strWidth m.username + strWidth sepStr) ∈ wrappedLinesOf h m width := by
  cases hw : wrappedLinesOf h m width with
  | nil => exact absurd hw (wrappedLinesOf_ne_nil h m width)
  | cons b0 bs =>
    rw [renderMessage_cons h m width b0 bs hw] at hl
    simp only [List.tail_cons] at hl
    obtain ⟨x, hx, rfl⟩ := List.mem_map.1 hl
    have hpad : padOf m ++ x =
        List.replicate (strWidth m.username + strWidth sepStr) ' ' ++ x := rfl
    constructor
    · rw [hpad, List.take_left' (by simp)]
    · rw [hpad, List.drop_left' (by simp)]
      exact List.mem_cons_of_mem _ hx

/-- C8 witness: the second line of the wrapped `hello world this wraps`
message at width 10 is three spaces (the width of `u: `) followed by a
wrapped line. -/
theorem c8_witness :
    ([' ', ' ', ' ', 'o', 'r', 'l', 'd', ' ', 't', 'h', '\n'] : GoStr).take
        (strWidth demoWrapMsg.username + strWidth sepStr) =
      List.replicate (strWidth demoWrapMsg.username + strWidth sepStr) ' ' ∧
    ([' ', ' ', ' ', 'o', 'r', 'l', 'd', ' ', 't', 'h', '\n'] : GoStr).drop
        (strWidth demoWrapMsg.username + strWidth sepStr) ∈
      wrappedLinesOf demoOff demoWrapMsg 10 :=
  continuation_line_padding demoOff demoWrapMsg 10 _ (by decide)

/-! ## Claim C10: trailing newline in the content -/

theorem baseLines_append_newline (m : ChatMessage) (width : Int) (c : GoStr)
    (hc : m.content = c ++ ['\n']) :
    baseLines m width = baseLines { m with content := c } width ++ [['\n']] := by
  show baseLinesStr m.username m.content width = baseLinesStr m.username c width ++ [['\n']]
  unfold baseLinesStr
  have h1 : wrap m.content (width - (strWidth m.username + strWidth sepStr : Nat)) =
      wrap c (width - (strWidth m.username + strWidth sepStr : Nat)) ++ ['\n'] := by
    rw [hc]
    exact wrapFrom_append_newline _ 0 c
  rw [h1, splitAfterNewline_append_newline, modLast_append_singleton]
  obtain ⟨init, p, hs, hp⟩ := splitAfterNewline_concat
    (wrap c (width - (strWidth m.username + strWidth sepStr : Nat)))
  rw [hs, modLast_append_singleton, modLast_append_singleton,
    ensureNL_of_no_newline p hp]
  rfl

/-- C10: for a non-selected message whose content ends in a newline,
RenderMessage produces the lines of the content without that trailing
newline, followed by one extra line consisting solely of the
continuation pad and a newline. -/
theorem trailing_newline_pad_line (h : HistoryState) (m : ChatMessage) (width : Int)
    (c : GoStr) (hsel : h.current ≠ m.uuid) (hc : m.content = c ++ ['\n']) :
    renderMessage h m width =
      renderMessage h { m with content := c } width ++
        [List.replicate (strWidth m.username + strWidth sepStr) ' ' ++ ['\n']] := by
  have hb' := baseLines_append_newline m width c hc
  obtain ⟨b0, bs, hB⟩ : ∃ b0 bs, baseLines { m with content := c } width = b0 :: bs := by
    cases hx : baseLines { m with content := c } width with
    | nil => exact absurd hx (baseLines_ne_nil _ _)
    | cons a as => exact ⟨a, as, rfl⟩
  have hw' : wrappedLinesOf h { m with content := c } width = b0 :: bs := by
    rw [wrappedLinesOf_not_selected h { m with content := c } width hsel, hB]
  have hw : wrappedLinesOf h m width = b0 :: (bs ++ [['\n']]) := by
    rw [wrappedLinesOf_not_selected h m width hsel, hb', hB]
    simp
  rw [renderMessage_cons h m width b0 (bs ++ [['\n']]) hw,
    renderMessage_cons h { m with content := c } width b0 bs hw']
  rw [show ({ m with content := c } : ChatMessage).username = m.username from rfl,
    show padOf { m with content := c } = padOf m from rfl,
    show padOf m = List.replicate (strWidth m.username + strWidth sepStr) ' ' from rfl]
  simp

/-- C10 witness: content `hi\n` at width 10 renders as the single
content line `u: hi\n` plus one pad-only line `   \n`. -/
theorem c10_witness :
    renderMessage demoOff demoNLMsg 10 =
      renderMessage demoOff { demoNLMsg with content := ['h', 'i'] } 10 ++
        [List.replicate (strWidth demoNLMsg.username + strWidth sepStr) ' ' ++ ['\n']] :=
  trailing_newline_pad_line demoOff demoNLMsg 10 ['h', 'i'] (by decide) (by decide)

/-! ## Claim C4: Render is bounded by the viewport height -/

theorem lastNElemsBytes_eq_drop (s : List GoStr) (n : Nat) :
    ∃ k, lastNElemsBytes s n = s.drop k := by
  unfold lastNElemsBytes
  split
  · exact ⟨0, rfl⟩
  · exact ⟨s.length - n, rfl⟩

theorem lastNElemsBytes_length (s : List GoStr) (n : Nat) :
    (lastNElemsBytes s n).length ≤ n := by
  unfold lastNElemsBytes
  split
  · next hge => exact hge
  · next hge => rw [List.length_drop]; omega

theorem writeAll_fst_length {ε : Type} (behavior : Nat → Option ε) (i : Nat) (ls : List GoStr) :
    (writeAll behavior i ls).1.length ≤ ls.length := by
  induction ls generalizing i with
  | nil => simp [writeAll]
  | cons l ls ih =>
    cases hbe : behavior i with
    | some e => simp [writeAll, hbe]
    | none =>
      have hrec := ih (i + 1)
      simp only [writeAll, hbe, List.length_cons]
      omega

theorem writeAll_fst_mem {ε : Type} (behavior : Nat → Option ε) (i : Nat) (ls : List GoStr)
    (x : GoStr) (hx : x ∈ (writeAll behavior i ls).1) : x ∈ ls := by
  induction ls generalizing i with
  | nil => simp [writeAll] at hx
  | cons l ls ih =>
    cases hbe : behavior i with
    | some e => simp [writeAll, hbe] at hx
    | none =>
      simp only [writeAll, hbe, List.mem_cons] at hx
      rcases hx with rfl | hx'
      · exact List.mem_cons_self _ _
      · exact List.mem_cons_of_mem _ (ih _ hx')

theorem renderLines_length (h : HistoryState) : (renderLines h).length ≤ h.renderHeight := by
  unfold renderLines
  exact lastNElemsBytes_length _ _

theorem mem_renderLines (h : HistoryState) (l : GoStr) (hl : l ∈ renderLines h) :
    l = [] ∨ ∃ m, m ∈ lastNElems h.history h.renderHeight ∧
      l ∈ renderMessage h m (h.renderWidth : Int) := by
  unfold renderLines at hl
  obtain ⟨k, hk⟩ := lastNElemsBytes_eq_drop _ h.renderHeight
  rw [hk] at hl
  have hl' := List.mem_of_mem_drop hl
  rcases List.mem_append.1 hl' with h1 | h2
  · exact Or.inl (List.eq_of_mem_replicate h1)
  · obtain ⟨lines, hlines, hmem⟩ := List.mem_flatten.1 h2
    obtain ⟨m, hm, rfl⟩ := List.mem_map.1 hlines
    exact Or.inr ⟨m, hm, hmem⟩

/-- C4: Render never writes more than renderHeight lines (Go pre-pads
the line buffer with renderHeight empty lines, so some writes may be of
an empty line), and every written line is either such an empty padding
line or a line produced from one of the last renderHeight messages of
History by RenderMessage at the current render width. -/
theorem render_line_bound (h : HistoryState) {ε : Type} (behavior : Nat → Option ε) :
    (render h behavior).1.length ≤ h.renderHeight ∧
    ∀ l ∈ (render h behavior).1,
      l = [] ∨ ∃ m, m ∈ lastNElems h.history h.renderHeight ∧
        l ∈ renderMessage h m (h.renderWidth : Int) := by
  constructor
  · exact le_trans (writeAll_fst_length behavior 0 (renderLines h)) (renderLines_length h)
  · intro l hl
    exact mem_renderLines h l (writeAll_fst_mem behavior 0 _ l hl)

/-- C4 witness: in the two-message state, the written line `v: yo\n`
comes from rendering one of the last renderHeight messages. -/
theorem c4_witness :
    (['v', ':', ' ', 'y', 'o', '\n'] : GoStr) = [] ∨
      ∃ m, m ∈ lastNElems demoTwo.history demoTwo.renderHeight ∧
        (['v', ':', ' ', 'y', 'o', '\n'] : GoStr) ∈
          renderMessage demoTwo m (demoTwo.renderWidth : Int) :=
  (render_line_bound demoTwo (fun _ => (none : Option Nat))).2 _ (by decide)

/-! ## Claim C9: write order and error propagation -/

theorem writeAll_success {ε : Type} (behavior : Nat → Option ε) (i : Nat) (ls : List GoStr)
    (hall : ∀ k, k < ls.length → behavior (i + k) = none) :
    writeAll behavior i ls = (ls, none) := by
  induction ls generalizing i with
  | nil => rfl
  | cons l ls ih =>
    have h0 : behavior i = none := by simpa using hall 0 (by simp)
    have ih' := ih (i + 1) (fun k hk => by
      have h' := hall (k + 1) (by simpa using Nat.succ_lt_succ hk)
      rwa [show i + (k + 1) = i + 1 + k from by omega] at h')
    simp [writeAll, h0, ih']

theorem writeAll_fail {ε : Type} (behavior : Nat → Option ε) (i : Nat) (ls : List GoStr)
    (k : Nat) (e : ε) (hk : k < ls.length) (hfail : behavior (i + k) = some e)
    (hpre : ∀ j, j < k → behavior (i + j) = none) :
    writeAll behavior i ls = (ls.take k, some e) := by
  induction ls generalizing i k with
  | nil => simp at hk
  | cons l ls ih =>
    cases k with
    | zero =>
      have h0 : behavior i = some e := by simpa using hfail
      simp [writeAll, h0]
    | succ k' =>
      have h0 : behavior i = none := by simpa using hpre 0 (Nat.succ_pos _)
      have ih' := ih (i + 1) k' (by simpa using Nat.lt_of_succ_lt_succ hk)
        (by rwa [show i + 1 + k' = i + (k' + 1) from by omega])
        (fun j hj => by
          have h' := hpre (j + 1) (Nat.succ_lt_succ hj)
          rwa [show i + (j + 1) = i + 1 + j from by omega] at h')
      simp [writeAll, h0, ih']

/-- C9: Render writes the visible lines in order, oldest first.  When
every write succeeds it writes all of them and returns no error; when
the k-th write is the first to fail, exactly the first k lines have
been written (and stay written), and Render returns that error
verbatim. -/
theorem render_write_order (h : HistoryState) {ε : Type} (behavior : Nat → Option ε) :
    ((∀ k, k < (renderLines h).length → behavior k = none) →
      render h behavior = (renderLines h, none)) ∧
    (∀ k e, k < (renderLines h).length → behavior k = some e →
      (∀ j, j < k → behavior j = none) →
      render h behavior = ((renderLines h).take k, some e)) := by
  constructor
  · intro hall
    exact writeAll_success behavior 0 _ (fun k hk => by simpa using hall k hk)
  · intro k e hk hfail hpre
    exact writeAll_fail behavior 0 _ k e (by simpa using hk) (by simpa using hfail)
      (fun j hj => by simpa using hpre j hj)

/-- A sink whose second write fails with error code 7. -/
def failB : Nat → Option Nat := fun k => if k = 1 then some 7 else none

/-- C9 witness: with the second write failing, Render emits exactly the
first visible line and returns the sink's error unchanged. -/
theorem c9_witness :
    render demoTwo failB = ((renderLines demoTwo).take 1, some 7) :=
  (render_write_order demoTwo failB).2 1 7 (by decide) (by decide) (by decide)

/-! ## Claim C5: cursor navigation -/

/-- C5: CursorDown is a no-op when fewer than two messages exist or the
cursor is on the last index, and otherwise advances the index by one
and selects the UUID there; CursorUp is a no-op when fewer than two
messages exist or the cursor is on index 0, and otherwise moves the
index back by one and selects the UUID there.  Both operations are
total.  The hypothesis is the state invariant every reachable state
satisfies: the cached index is inside the history unless the history
has at most one entry. -/
theorem cursor_navigation (h : HistoryState)
    (hwf : h.currentIndex < h.history.length ∨ h.history.length ≤ 1) :
    (h.history.length < 2 → cursorDown h = h ∧ cursorUp h = h) ∧
    (h.currentIndex = h.history.length - 1 → cursorDown h = h) ∧
    (2 ≤ h.history.length → h.currentIndex ≠ h.history.length - 1 →
      cursorDown h = { h with
        current := (h.history.getD (h.currentIndex + 1) default).uuid
        currentIndex := h.currentIndex + 1 }) ∧
    (h.currentIndex = 0 → cursorUp h = h) ∧
    (2 ≤ h.history.length → h.currentIndex ≠ 0 →
      cursorUp h = { h with
        current := (h.history.getD (h.currentIndex - 1) default).uuid
        currentIndex := h.currentIndex - 1 }) := by
  refine ⟨?_, ?_, ?_, ?_, ?_⟩
  · intro hlt
    constructor
    · unfold cursorDown
      rw [if_pos hlt]
    · unfold cursorUp
      rw [if_pos hlt]
  · intro hidx
    by_cases hlt : h.history.length < 2
    · unfold cursorDown
      rw [if_pos hlt]
    · unfold cursorDown
      rw [if_neg hlt, dif_pos (by omega)]
  · intro hge hne
    have hlt : h.currentIndex + 1 < h.history.length := by omega
    unfold cursorDown
    rw [if_neg (by omega), dif_neg (by omega)]
    have hget : h.history.getD (h.currentIndex + 1) default =
        h.history.get ⟨h.currentIndex + 1, hlt⟩ := by
      rw [List.getD_eq_getElem h.history default hlt, List.get_eq_getElem]
    rw [hget]
  · intro h0
    by_cases hlt : h.history.length < 2
    · unfold cursorUp
      rw [if_pos hlt]
    · unfold cursorUp
      rw [if_neg hlt, if_pos h0]
  · intro hge hne
    unfold cursorUp
    rw [if_neg (by omega), if_neg hne]

/-- C5 witness: in the two-message state with the cursor on index 0,
CursorDown moves to index 1 (selecting `b`), and CursorUp is a no-op. -/
theorem c5_witness :
    cursorDown demoTwo = { demoTwo with
      current := (demoTwo.history.getD (demoTwo.currentIndex + 1) default).uuid
      currentIndex := demoTwo.currentIndex + 1 } ∧
    cursorUp demoTwo = demoTwo :=
  ⟨(cursor_navigation demoTwo (by decide)).2.2.1 (by decide) (by decide),
   (cursor_navigation demoTwo (by decide)).2.2.2.1 (by decide)⟩

/-! ## Claim C6: the selection is set once and kept -/

/-- C6: Current is the empty string on the fresh state; a New call on a
state with no selection selects the new message's UUID (so the first
New selects the first message), and a New call on a state that already
has a selection leaves it unchanged; SetDimensions never changes it. -/
theorem current_selection (h h' : HistoryState) (m : ChatMessage) :
    Current initState = [] ∧
    (NewRel h m h' → Current h' = (if Current h = [] then m.uuid else Current h)) ∧
    (∀ a b, Current (SetDimensions h a b) = Current h) := by
  refine ⟨rfl, ?_, fun a b => rfl⟩
  intro hnew
  obtain ⟨-, -, -, -, hcur⟩ := hnew
  show h'.current = if h.current = [] then m.uuid else h.current
  by_cases hc : h.current = []
  · rw [if_pos hc] at hcur ⊢
    exact hcur.1
  · rw [if_neg hc] at hcur ⊢
    exact hcur.1

/-- C6 witness: the first New on the empty state selects msgA. -/
theorem c6_witness :
    Current stateA = (if Current initState = [] then msgA.uuid else Current initState) :=
  (current_selection initState stateA msgA).2.1 (by decide)

/-! ## Claim C1: sortedness of the history after New calls -/

theorem reaches_perm {h : HistoryState} {ms : List ChatMessage} {h' : HistoryState}
    (hr : Reaches h ms h') : h'.history.Perm (h.history ++ ms) := by
  induction hr with
  | nil h0 => simp
  | step hnew htail ih =>
    exact ih.trans ((hnew.1.append_right _).trans (List.Perm.of_eq (by simp)))

theorem reaches_sorted {h : HistoryState} {ms : List ChatMessage} {h' : HistoryState}
    (hr : Reaches h ms h') :
    h'.history.Pairwise (fun a b => a.timestamp ≤ b.timestamp) ∨ h' = h := by
  induction hr with
  | nil h0 => exact Or.inr rfl
  | step hnew htail ih =>
    rcases ih with hs | rfl
    · exact Or.inl hs
    · exact Or.inl hnew.2.1

/-- C1 (amended): after every sequence of New calls starting from the
empty state, History is a permutation of the inserted messages, sorted
ascending (non-decreasing) by Timestamp.  The relative order of
equal-timestamp messages is NOT pinned down: New sorts with Go's
sort.Slice, whose contract does not guarantee stability, so any sorted
permutation is a permitted outcome (see the counterexample). -/
theorem history_sorted_after_new (msgs : List ChatMessage) (h' : HistoryState)
    (hr : Reaches initState msgs h') :
    h'.history.Perm msgs ∧
    h'.history.Pairwise (fun a b => a.timestamp ≤ b.timestamp) := by
  constructor
  · have hp := reaches_perm hr
    simpa [initState] using hp
  · rcases reaches_sorted hr with hs | heq
    · exact hs
    · rw [heq]
      simp [initState]

/-- C1 counterexample: msgA then msgB carry the same timestamp 5.
Stability would force the history [msgA, msgB] (insertion order), but
New sorts with the unstable sort.Slice, for which the sorted
permutation [msgB, msgA] is a permitted result of the second call. -/
theorem c1_counterexample :
    Reaches initState [msgA, msgB] stateBA ∧ stateBA.history ≠ [msgA, msgB] :=
  ⟨@Reaches.step initState stateA stateBA msgA [msgB] (by decide)
      (@Reaches.step stateA stateBA stateBA msgB [] (by decide) (Reaches.nil stateBA)),
    by decide⟩

/-- C1 witness: the amended theorem applied to the one-element trace. -/
theorem c1_witness :
    stateA.history.Perm [msgA] ∧
    stateA.history.Pairwise (fun a b => a.timestamp ≤ b.timestamp) :=
  history_sorted_after_new [msgA] stateA
    (@Reaches.step initState stateA stateA msgA [] (by decide) (Reaches.nil stateA))

end Muscadine
